import Mathlib

/-!
Verification of the change-detection and branch-synchronization engine of the
vocoder-github-app repository, shallowly embedded in Lean 4.

The embedding follows the JavaScript sources:
  * `src/unnamed/part_007` (localization.js: `detectStringChanges`,
    `translateChanges`, `mockTranslateAPI`, `commitTranslationsToPR`,
    `generateCommitMessage`; constants.js: `DEFAULT_CONFIG`, `validateConfig`,
    `isTargetBranch`)
  * `src/src/utils/api.js` (`getFileContent`, `setCommitStatus`, `getConfig`,
    `getConfigWithFallback`)
  * `src/src/utils/events.js` (`handlePullRequestEvent`, `processPullRequest`,
    `setErrorStatus`)

JavaScript values parsed from JSON documents are modelled by `JValue`.
The behaviour of the two npm library functions the diff engine is built on,
`flatten` (package `flat`, called with default options) and `detailedDiff`
(package `deep-object-diff`), is embedded from those libraries' published
sources, specialised to the shapes they are applied to here.

Effectful code (network calls to the hosting service) is embedded as pure
functions over an explicit environment of remote-call outcomes, returning both
the computed result and a trace of the remote calls issued, so that statements
about which remote operations happen (and in which order) can be proved.
-/

namespace Vocoder

/-- A JavaScript value as produced by `JSON.parse` on a localization document:
a string leaf, an object (ordered field list), or an array.  Numbers, booleans
and `null` do not occur in the documents the claims are about; where a claim
quantifies over ill-typed inputs, `obj`/`arr`/`str` already realise every
behaviourally distinct case of the code under scrutiny (`Array.isArray`,
`typeof x === "string"`, recursion into non-empty objects/arrays). -/
inductive JValue where
  | str (s : String)
  | obj (fields : List (String × JValue))
  | arr (elems : List JValue)

/-- First-match association-list lookup, the JS `hasOwnProperty`/property
access on objects represented as entry lists (JS objects have unique keys;
where that matters below it appears as a `Nodup` hypothesis). -/
def lookupKey {α : Type} : List (String × α) → String → Option α
  | [], _ => none
  | (k, v) :: rest, key => if k = key then some v else lookupKey rest key

/-- The keys of an object represented as an entry list. -/
def keysOf {α : Type} (m : List (String × α)) : List String :=
  m.map Prod.fst

/-! ### Flattening (npm package `flat`, default options)

`flatten(target)` walks the object, joining nested keys with `"."`.  With the
default options (`safe: false`) it recurses into every non-empty object *and*
every non-empty array (array indices become key segments `"0"`, `"1"`, …);
a value is kept as a leaf exactly when it is a primitive, an empty object or
an empty array. -/

mutual

/-- Flatten the value `v` whose full dot-joined key is `key`
(the body of `flat`'s `step`, for one key/value pair). -/
def flattenUnder (key : String) : JValue → List (String × JValue)
  | .obj (f :: fs) => flattenFields key (f :: fs)
  | .arr (e :: es) => flattenElems key 0 (e :: es)
  | v => [(key, v)]

/-- Flatten the fields of a non-empty object under prefix `pre`. -/
def flattenFields (pre : String) : List (String × JValue) → List (String × JValue)
  | [] => []
  | (k, v) :: rest => flattenUnder (pre ++ "." ++ k) v ++ flattenFields pre rest

/-- Flatten the elements of a non-empty array under prefix `pre`,
numbering from index `i`. -/
def flattenElems (pre : String) (i : Nat) : List JValue → List (String × JValue)
  | [] => []
  | v :: rest => flattenUnder (pre ++ "." ++ toString i) v ++ flattenElems pre (i + 1) rest

end

/-- `flatten` of a top-level document (a parsed JSON object, given as its
field list): each top-level key is flattened with itself as the prefix. -/
def flattenDoc : List (String × JValue) → List (String × JValue)
  | [] => []
  | (k, v) :: rest => flattenUnder k v ++ flattenDoc rest

/-! ### Sorting the flattened entries

`detectStringChanges` sorts both flattened objects by key
(`entries.sort((a, b) => a[0].localeCompare(b[0]))` followed by
`Object.fromEntries`).  `Array.prototype.sort` permutes the entries; we model
it by a stable insertion sort on keys.  `localeCompare`'s collation order may
differ from the code-point order used here, but any comparison sort yields a
permutation of the entries, and `Object.fromEntries` produces the same
key-to-value object for every permutation, which is all the theorems use. -/

/-- Code-point comparison of key strings, standing in for `localeCompare`'s
total order (only the induced permutation of the entries is ever used). -/
def charListLe : List Char → List Char → Bool
  | [], _ => true
  | _ :: _, [] => false
  | a :: as, b :: bs =>
    if a.toNat < b.toNat then true
    else if b.toNat < a.toNat then false
    else charListLe as bs

/-- Key comparator for the entry sort. -/
def strLe (a b : String) : Bool :=
  charListLe a.data b.data

/-- Insert one entry into a key-sorted entry list (stable: an equal key goes
in front of no earlier equal key). -/
def insertByKey (kv : String × JValue) : List (String × JValue) → List (String × JValue)
  | [] => [kv]
  | x :: xs => if strLe kv.1 x.1 then kv :: x :: xs else x :: insertByKey kv xs

/-- Sort an entry list by key (model of the `sort`/`Object.fromEntries` step). -/
def sortEntries : List (String × JValue) → List (String × JValue)
  | [] => []
  | x :: xs => insertByKey x (sortEntries xs)

/-! ### `detailedDiff` (npm package `deep-object-diff`)

`detailedDiff(lhs, rhs) = { added, deleted, updated }`.  It is applied here to
the two flattened documents, whose values are leaves (strings, empty objects or
empty arrays), so the library's recursive calls on common keys reduce to their
base cases, embedded below:

  * `addedDiff`: keys of `rhs` absent from `lhs`, with the `rhs` value; for a
    key present in both, the recursive difference of two leaves is the empty
    object, which the library discards.
  * `deletedDiff`: keys of `lhs` absent from `rhs`, each mapped to the
    JavaScript value `undefined` (modelled as `none`), never to the old value.
  * `updatedDiff`: keys present in both whose recursive difference is kept:
    for leaf values that happens exactly when the `rhs` value is a string that
    is not `===`-equal to the `lhs` value (a non-string `rhs` leaf is an empty
    object or array, which the library's emptiness check discards). -/

/-- Whether `updatedDiff` records a change for a common key whose old (`lv`)
and new (`rv`) values are leaves: `lhs === rhs` returns the empty diff; a
non-object `lhs` or `rhs` returns `rhs`, which is kept unless it is an empty
object/array; two (empty) objects produce an empty diff, which is dropped. -/
def updRecorded (lv rv : JValue) : Bool :=
  match lv, rv with
  | .str a, .str b => a != b
  | _, .str _ => true
  | _, _ => false

/-- `addedDiff(l, r)` on flattened documents. -/
def addedDiff (l r : List (String × JValue)) : List (String × JValue) :=
  r.filter (fun kv => (lookupKey l kv.1).isNone)

/-- `deletedDiff(l, r)` on flattened documents: deleted keys map to
`undefined` (`none`). -/
def deletedDiff (l r : List (String × JValue)) : List (String × Option JValue) :=
  (l.filter (fun kv => (lookupKey r kv.1).isNone)).map (fun kv => (kv.1, none))

/-- `updatedDiff(l, r)` on flattened documents. -/
def updatedDiff (l r : List (String × JValue)) : List (String × JValue) :=
  r.filterMap (fun kv =>
    match lookupKey l kv.1 with
    | some lv => if updRecorded lv kv.2 then some kv else none
    | none => none)

/-- The `{ added, updated, deleted }` result of `detailedDiff`: `added` and
`updated` map keys to (new) values, `deleted` maps keys to `undefined`. -/
structure ChangeSet where
  added : List (String × JValue)
  updated : List (String × JValue)
  deleted : List (String × Option JValue)

/-- `detectStringChanges(baseStrings, currentStrings)` (localization.js):
flatten both documents, sort each by key, and take `detailedDiff` of the two
sorted objects. -/
def detectStringChanges (baseStrings currentStrings : List (String × JValue)) : ChangeSet :=
  let sortedBaseStrings := sortEntries (flattenDoc baseStrings)
  let sortedCurrentStrings := sortEntries (flattenDoc currentStrings)
  { added := addedDiff sortedBaseStrings sortedCurrentStrings
    updated := updatedDiff sortedBaseStrings sortedCurrentStrings
    deleted := deletedDiff sortedBaseStrings sortedCurrentStrings }

/-- A flat localization document with string leaf values (the data-model shape
`map<key, string>`), embedded as a `JValue` entry list. -/
def strDoc (m : List (String × String)) : List (String × JValue) :=
  m.map (fun kv => (kv.1, JValue.str kv.2))

/-! ### Support lemmas: lookup, sorting, flattening of flat documents -/

theorem keysOf_nil {α : Type} : keysOf ([] : List (String × α)) = [] := rfl

theorem keysOf_cons {α : Type} (kv : String × α) (m : List (String × α)) :
    keysOf (kv :: m) = kv.1 :: keysOf m := rfl

theorem lookupKey_eq_none_iff {α : Type} (m : List (String × α)) (k : String) :
    lookupKey m k = none ↔ k ∉ keysOf m := by
  induction m with
  | nil => simp [lookupKey, keysOf]
  | cons kv rest ih =>
    obtain ⟨k', v'⟩ := kv
    by_cases h : k' = k
    · subst h
      simp [lookupKey, keysOf_cons]
    · simp only [lookupKey, if_neg h, keysOf_cons, List.mem_cons, ih]
      constructor
      · rintro hn (hk | hk)
        · exact h hk.symm
        · exact hn hk
      · exact fun hn hk => hn (Or.inr hk)

theorem lookupKey_isSome_iff {α : Type} (m : List (String × α)) (k : String) :
    (lookupKey m k).isSome ↔ k ∈ keysOf m := by
  rw [Option.isSome_iff_ne_none, ne_eq, lookupKey_eq_none_iff, not_not]

theorem lookupKey_eq_some_iff {α : Type} (m : List (String × α)) (k : String) (v : α) :
    (keysOf m).Nodup → (lookupKey m k = some v ↔ (k, v) ∈ m) := by
  induction m with
  | nil =>
    intro _
    simp [lookupKey]
  | cons kv rest ih =>
    intro hnd
    obtain ⟨k', v'⟩ := kv
    rw [keysOf_cons] at hnd
    obtain ⟨hk, hrest⟩ := List.nodup_cons.mp hnd
    by_cases h : k' = k
    · subst h
      rw [lookupKey, if_pos rfl]
      constructor
      · intro h'
        injection h' with h''
        subst h''
        exact List.mem_cons_self _ _
      · intro h'
        rcases List.mem_cons.mp h' with h'' | h''
        · exact (congrArg (fun w => some w) (congrArg Prod.snd h'')).symm
        · exact absurd (List.mem_map_of_mem Prod.fst h'') hk
    · simp only [lookupKey, if_neg h, List.mem_cons, Prod.mk.injEq, ih hrest]
      constructor
      · exact Or.inr
      · rintro (⟨h1, _⟩ | h')
        · exact absurd h1.symm h
        · exact h'

theorem lookupKey_mem {α : Type} {m : List (String × α)} {k : String} {v : α}
    (h : lookupKey m k = some v) : (k, v) ∈ m := by
  induction m with
  | nil => simp [lookupKey] at h
  | cons kv rest ih =>
    obtain ⟨k', v'⟩ := kv
    rw [lookupKey] at h
    by_cases hk : k' = k
    · rw [if_pos hk] at h
      cases h
      subst hk
      exact List.mem_cons_self _ _
    · rw [if_neg hk] at h
      exact List.mem_cons_of_mem _ (ih h)

theorem insertByKey_perm (kv : String × JValue) (m : List (String × JValue)) :
    (insertByKey kv m).Perm (kv :: m) := by
  induction m with
  | nil => simp [insertByKey]
  | cons x xs ih =>
    rw [insertByKey]
    split
    · exact List.Perm.refl _
    · exact ((ih.cons x).trans (List.Perm.swap kv x xs))

theorem sortEntries_perm (m : List (String × JValue)) :
    (sortEntries m).Perm m := by
  induction m with
  | nil => simp [sortEntries]
  | cons x xs ih =>
    exact (insertByKey_perm x (sortEntries xs)).trans (ih.cons x)

theorem keysOf_perm_of_perm {α : Type} {m₁ m₂ : List (String × α)}
    (h : m₁.Perm m₂) : (keysOf m₁).Perm (keysOf m₂) :=
  h.map Prod.fst

theorem lookupKey_eq_of_perm {α : Type} {m₁ m₂ : List (String × α)}
    (h : m₁.Perm m₂) (hnd : (keysOf m₂).Nodup) (k : String) :
    lookupKey m₁ k = lookupKey m₂ k := by
  have hnd₁ : (keysOf m₁).Nodup := ((keysOf_perm_of_perm h).nodup_iff).mpr hnd
  cases h₂ : lookupKey m₂ k with
  | none =>
    rw [lookupKey_eq_none_iff] at h₂ ⊢
    exact fun hmem => h₂ (((keysOf_perm_of_perm h).mem_iff).mp hmem)
  | some v =>
    rw [lookupKey_eq_some_iff m₂ k v hnd] at h₂
    exact (lookupKey_eq_some_iff m₁ k v hnd₁).mpr (h.mem_iff.mpr h₂)

theorem flattenDoc_strDoc (m : List (String × String)) :
    flattenDoc (strDoc m) = strDoc m := by
  induction m with
  | nil => rfl
  | cons kv rest ih =>
    simp [strDoc, flattenDoc, flattenUnder] at ih ⊢
    exact ih

theorem keysOf_strDoc (m : List (String × String)) :
    keysOf (strDoc m) = keysOf m := by
  simp [keysOf, strDoc]

theorem lookupKey_strDoc (m : List (String × String)) (k : String) :
    lookupKey (strDoc m) k = (lookupKey m k).map JValue.str := by
  induction m with
  | nil => rfl
  | cons kv rest ih =>
    obtain ⟨k', s⟩ := kv
    by_cases h : k' = k
    · simp [strDoc, lookupKey, h]
    · simp only [strDoc, List.map_cons, lookupKey, if_neg h]
      exact ih

theorem mem_strDoc_iff (m : List (String × String)) (k : String) (v : JValue) :
    (k, v) ∈ strDoc m ↔ ∃ s, v = JValue.str s ∧ (k, s) ∈ m := by
  simp only [strDoc, List.mem_map, Prod.mk.injEq]
  constructor
  · rintro ⟨⟨k', s⟩, hmem, hk, hv⟩
    exact ⟨s, hv.symm, by rwa [← hk]⟩
  · rintro ⟨s, hv, hmem⟩
    exact ⟨(k, s), hmem, rfl, hv.symm⟩

/-! ### Key-set characterizations of the three diff maps -/

theorem mem_keysOf_addedDiff (l r : List (String × JValue)) (k : String) :
    k ∈ keysOf (addedDiff l r) ↔ k ∈ keysOf r ∧ k ∉ keysOf l := by
  simp only [addedDiff, keysOf, List.mem_map, List.mem_filter,
    Option.isNone_iff_eq_none, lookupKey_eq_none_iff]
  constructor
  · rintro ⟨⟨k', v⟩, ⟨hmem, hnone⟩, hk⟩
    subst hk
    exact ⟨⟨(k', v), hmem, rfl⟩, hnone⟩
  · rintro ⟨⟨⟨k', v⟩, hmem, hk⟩, hnone⟩
    subst hk
    exact ⟨(k', v), ⟨hmem, hnone⟩, rfl⟩

theorem mem_keysOf_deletedDiff (l r : List (String × JValue)) (k : String) :
    k ∈ keysOf (deletedDiff l r) ↔ k ∈ keysOf l ∧ k ∉ keysOf r := by
  simp only [deletedDiff, keysOf, List.map_map, List.mem_map, List.mem_filter,
    Option.isNone_iff_eq_none, lookupKey_eq_none_iff, Function.comp]
  constructor
  · rintro ⟨⟨k', v⟩, ⟨hmem, hnone⟩, hk⟩
    subst hk
    exact ⟨⟨(k', v), hmem, rfl⟩, hnone⟩
  · rintro ⟨⟨⟨k', v⟩, hmem, hk⟩, hnone⟩
    subst hk
    exact ⟨(k', v), ⟨hmem, hnone⟩, rfl⟩

theorem mem_keysOf_updatedDiff (l r : List (String × JValue)) (k : String) :
    k ∈ keysOf (updatedDiff l r) ↔
      ∃ rv, (k, rv) ∈ r ∧ ∃ lv, lookupKey l k = some lv ∧ updRecorded lv rv = true := by
  simp only [updatedDiff, keysOf, List.mem_map, List.mem_filterMap]
  constructor
  · rintro ⟨⟨k', v⟩, ⟨⟨k'', v''⟩, hmem, hf⟩, hk⟩
    subst hk
    cases hl : lookupKey l k'' with
    | none => simp [hl] at hf
    | some lv =>
      simp only [hl] at hf
      split at hf
      · next hrec =>
        have h1 : (k'', v'') = (k', v) := Option.some.inj hf
        have hk2 : k'' = k' := congrArg Prod.fst h1
        have hv2 : v'' = v := congrArg Prod.snd h1
        subst hk2
        subst hv2
        exact ⟨v'', hmem, lv, hl, hrec⟩
      · cases hf
  · rintro ⟨rv, hmem, lv, hl, hrec⟩
    refine ⟨(k, rv), ⟨(k, rv), hmem, ?_⟩, rfl⟩
    show (match lookupKey l k with
      | some lv => if updRecorded lv rv = true then some (k, rv) else none
      | none => none) = some (k, rv)
    simp only [hl]
    exact if_pos hrec

theorem mem_deletedDiff_none (l r : List (String × JValue)) (k : String)
    (w : Option JValue) (h : (k, w) ∈ deletedDiff l r) : w = none := by
  simp only [deletedDiff, List.mem_map, List.mem_filter] at h
  obtain ⟨kv, _, h⟩ := h
  exact (Prod.mk.injEq _ _ _ _ ▸ h).2.symm

theorem detectStringChanges_added (b c : List (String × JValue)) :
    (detectStringChanges b c).added
      = addedDiff (sortEntries (flattenDoc b)) (sortEntries (flattenDoc c)) := rfl

theorem detectStringChanges_updated (b c : List (String × JValue)) :
    (detectStringChanges b c).updated
      = updatedDiff (sortEntries (flattenDoc b)) (sortEntries (flattenDoc c)) := rfl

theorem detectStringChanges_deleted (b c : List (String × JValue)) :
    (detectStringChanges b c).deleted
      = deletedDiff (sortEntries (flattenDoc b)) (sortEntries (flattenDoc c)) := rfl

theorem mem_keysOf_sortEntries (m : List (String × JValue)) (k : String) :
    k ∈ keysOf (sortEntries m) ↔ k ∈ keysOf m :=
  (keysOf_perm_of_perm (sortEntries_perm m)).mem_iff

theorem nodup_keysOf_sortEntries (m : List (String × JValue)) :
    (keysOf (sortEntries m)).Nodup ↔ (keysOf m).Nodup :=
  (keysOf_perm_of_perm (sortEntries_perm m)).nodup_iff

theorem lookupKey_sortEntries (m : List (String × JValue))
    (hnd : (keysOf m).Nodup) (k : String) :
    lookupKey (sortEntries m) k = lookupKey m k :=
  lookupKey_eq_of_perm (sortEntries_perm m) hnd k

/-- Key-set of the `added` map of `detectStringChanges` on flat string
documents: the keys of the current document missing from the base document. -/
theorem dsc_added_mem (A B : List (String × String)) (k : String) :
    k ∈ keysOf (detectStringChanges (strDoc A) (strDoc B)).added ↔
      k ∈ keysOf B ∧ k ∉ keysOf A := by
  rw [detectStringChanges_added, flattenDoc_strDoc, flattenDoc_strDoc,
    mem_keysOf_addedDiff, mem_keysOf_sortEntries, mem_keysOf_sortEntries,
    keysOf_strDoc, keysOf_strDoc]

/-- Key-set of the `deleted` map of `detectStringChanges` on flat string
documents: the keys of the base document missing from the current document. -/
theorem dsc_deleted_mem (A B : List (String × String)) (k : String) :
    k ∈ keysOf (detectStringChanges (strDoc A) (strDoc B)).deleted ↔
      k ∈ keysOf A ∧ k ∉ keysOf B := by
  rw [detectStringChanges_deleted, flattenDoc_strDoc, flattenDoc_strDoc,
    mem_keysOf_deletedDiff, mem_keysOf_sortEntries, mem_keysOf_sortEntries,
    keysOf_strDoc, keysOf_strDoc]

/-- Key-set of the `updated` map of `detectStringChanges` on flat string
documents with unique keys: the keys present in both documents with distinct
values. -/
theorem dsc_updated_mem (A B : List (String × String))
    (hA : (keysOf A).Nodup) (hB : (keysOf B).Nodup) (k : String) :
    k ∈ keysOf (detectStringChanges (strDoc A) (strDoc B)).updated ↔
      ∃ a b, lookupKey A k = some a ∧ lookupKey B k = some b ∧ a ≠ b := by
  have hA' : (keysOf (strDoc A)).Nodup := by rwa [keysOf_strDoc]
  rw [detectStringChanges_updated, flattenDoc_strDoc, flattenDoc_strDoc,
    mem_keysOf_updatedDiff]
  constructor
  · rintro ⟨rv, hmem, lv, hl, hrec⟩
    rw [lookupKey_sortEntries _ hA', lookupKey_strDoc] at hl
    rw [(sortEntries_perm (strDoc B)).mem_iff, mem_strDoc_iff] at hmem
    obtain ⟨b, rfl, hmemB⟩ := hmem
    obtain ⟨a, hla, rfl⟩ := Option.map_eq_some'.mp hl
    refine ⟨a, b, hla, (lookupKey_eq_some_iff B k b hB).mpr hmemB, ?_⟩
    simpa [updRecorded] using hrec
  · rintro ⟨a, b, hla, hlb, hne⟩
    refine ⟨JValue.str b, ?_, JValue.str a, ?_, ?_⟩
    · rw [(sortEntries_perm (strDoc B)).mem_iff, mem_strDoc_iff]
      exact ⟨b, rfl, (lookupKey_eq_some_iff B k b hB).mp hlb⟩
    · rw [lookupKey_sortEntries _ hA', lookupKey_strDoc, hla]
      rfl
    · simpa [updRecorded] using hne

/-- The three properties claimed of a ChangeSet: pairwise disjoint key-sets. -/
def disjointKeySets (cs : ChangeSet) : Prop :=
  (∀ k, k ∈ keysOf cs.added → k ∉ keysOf cs.updated) ∧
  (∀ k, k ∈ keysOf cs.added → k ∉ keysOf cs.deleted) ∧
  (∀ k, k ∈ keysOf cs.updated → k ∉ keysOf cs.deleted)

/-- The union of the three key-sets is the symmetric difference of the two
documents' key-sets plus the keys present in both with changed values. -/
def coversChanges (A B : List (String × String)) (cs : ChangeSet) : Prop :=
  ∀ k, (k ∈ keysOf cs.added ∨ k ∈ keysOf cs.updated ∨ k ∈ keysOf cs.deleted) ↔
    ((k ∈ keysOf A ∧ k ∉ keysOf B) ∨ (k ∈ keysOf B ∧ k ∉ keysOf A) ∨
      (∃ a b, lookupKey A k = some a ∧ lookupKey B k = some b ∧ a ≠ b))

/-- A key present in both documents with equal values is in none of the three
maps. -/
def unchangedAbsent (A B : List (String × String)) (cs : ChangeSet) : Prop :=
  ∀ k v, lookupKey A k = some v → lookupKey B k = some v →
    (k ∉ keysOf cs.added ∧ k ∉ keysOf cs.updated ∧ k ∉ keysOf cs.deleted)

/-- Claim C1: for every pair of flattened localization documents `A` and `B`
(flat string-valued maps with unique keys), the ChangeSet returned by
`detectStringChanges(A, B)` has pairwise disjoint added/updated/deleted
key-sets, their union equals the symmetric difference of `A`'s and `B`'s
key-sets plus the set of keys present in both with changed values, and a key
present in both documents with equal values appears in none of the three
maps. -/
theorem detectStringChanges_changeSet_invariant (A B : List (String × String))
    (hA : (keysOf A).Nodup) (hB : (keysOf B).Nodup) :
    disjointKeySets (detectStringChanges (strDoc A) (strDoc B)) ∧
    coversChanges A B (detectStringChanges (strDoc A) (strDoc B)) ∧
    unchangedAbsent A B (detectStringChanges (strDoc A) (strDoc B)) := by
  have hadd := dsc_added_mem A B
  have hdel := dsc_deleted_mem A B
  have hupd := dsc_updated_mem A B hA hB
  refine ⟨⟨?_, ?_, ?_⟩, ?_, ?_⟩
  · intro k hk hk2
    obtain ⟨a, b, hla, _, _⟩ := (hupd k).mp hk2
    exact ((hadd k).mp hk).2 ((lookupKey_isSome_iff A k).mp (by rw [hla]; rfl))
  · intro k hk hk2
    exact ((hdel k).mp hk2).2 ((hadd k).mp hk).1
  · intro k hk hk2
    obtain ⟨a, b, _, hlb, _⟩ := (hupd k).mp hk
    exact ((hdel k).mp hk2).2 ((lookupKey_isSome_iff B k).mp (by rw [hlb]; rfl))
  · intro k
    constructor
    · rintro (hk | hk | hk)
      · exact Or.inr (Or.inl ((hadd k).mp hk))
      · exact Or.inr (Or.inr ((hupd k).mp hk))
      · exact Or.inl ((hdel k).mp hk)
    · rintro (h | h | h)
      · exact Or.inr (Or.inr ((hdel k).mpr h))
      · exact Or.inl ((hadd k).mpr h)
      · exact Or.inr (Or.inl ((hupd k).mpr h))
  · intro k v h1 h2
    refine ⟨?_, ?_, ?_⟩
    · intro hk
      exact ((hadd k).mp hk).2 ((lookupKey_isSome_iff A k).mp (by rw [h1]; rfl))
    · intro hk
      obtain ⟨a, b, hla, hlb, hne⟩ := (hupd k).mp hk
      rw [h1] at hla
      rw [h2] at hlb
      exact hne ((Option.some.inj hla).symm.trans (Option.some.inj hlb))
    · intro hk
      exact ((hdel k).mp hk).2 ((lookupKey_isSome_iff B k).mp (by rw [h2]; rfl))

theorem detectStringChanges_changeSet_invariant_witness :
    (keysOf [("a", "1"), ("c", "2")]).Nodup ∧
    (keysOf [("a", "1"), ("b", "3")]).Nodup ∧
    (disjointKeySets
        (detectStringChanges (strDoc [("a", "1"), ("c", "2")]) (strDoc [("a", "1"), ("b", "3")])) ∧
      coversChanges [("a", "1"), ("c", "2")] [("a", "1"), ("b", "3")]
        (detectStringChanges (strDoc [("a", "1"), ("c", "2")]) (strDoc [("a", "1"), ("b", "3")])) ∧
      unchangedAbsent [("a", "1"), ("c", "2")] [("a", "1"), ("b", "3")]
        (detectStringChanges (strDoc [("a", "1"), ("c", "2")]) (strDoc [("a", "1"), ("b", "3")]))) :=
  ⟨by decide, by decide,
    detectStringChanges_changeSet_invariant _ _ (by decide) (by decide)⟩

/-- Whether a JavaScript value is kept as a leaf by `flatten` with default
options: a primitive, an empty object or an empty array. -/
def isLeaf : JValue → Bool
  | .str _ => true
  | .obj [] => true
  | .arr [] => true
  | _ => false

theorem flattenUnder_leaf (key : String) (v : JValue) (h : isLeaf v = true) :
    flattenUnder key v = [(key, v)] := by
  cases v with
  | str s => rfl
  | obj fields =>
    cases fields with
    | nil => rfl
    | cons f fs => simp [isLeaf] at h
  | arr elems =>
    cases elems with
    | nil => rfl
    | cons e es => simp [isLeaf] at h

theorem flattenElems_of_leaves (key : String) (elems : List JValue) :
    ∀ i : Nat, (∀ v ∈ elems, isLeaf v = true) →
      flattenElems key i elems
        = (elems.enumFrom i).map (fun p => (key ++ "." ++ toString p.1, p.2)) := by
  induction elems with
  | nil =>
    intro i _
    rfl
  | cons e es ih =>
    intro i h
    rw [flattenElems, flattenUnder_leaf _ _ (h e (List.mem_cons_self _ _)),
      ih (i + 1) (fun v hv => h v (List.mem_cons_of_mem _ hv))]
    rfl

/-- Claim C7 (counterexample): flattening a document whose value at key `a`
is a non-empty array produces the per-index sub-key `a.0` and no opaque entry
under the key `a` itself, contradicting the claim that arrays are not
recursed into. -/
theorem flatten_array_not_opaque_cex :
    "a.0" ∈ keysOf (detectStringChanges [] [("a", JValue.arr [.str "x", .str "y"])]).added ∧
    ("a", JValue.arr [.str "x", .str "y"])
      ∉ (detectStringChanges [] [("a", JValue.arr [.str "x", .str "y"])]).added := by
  constructor
  · rw [show keysOf (detectStringChanges [] [("a", JValue.arr [.str "x", .str "y"])]).added
        = ["a.0", "a.1"] from rfl]
    decide
  · intro h
    rw [show (detectStringChanges [] [("a", JValue.arr [.str "x", .str "y"])]).added
        = [("a.0", JValue.str "x"), ("a.1", JValue.str "y")] from rfl] at h
    rcases List.mem_cons.mp h with h' | h'
    · exact absurd (congrArg Prod.fst h') (by decide)
    · rcases List.mem_cons.mp h' with h'' | h''
      · exact absurd (congrArg Prod.fst h'') (by decide)
      · exact absurd h'' (List.not_mem_nil _)

/-- Claim C7 (amended): `flatten` with default options recurses into every
non-empty array, producing per-index dot-joined sub-keys (`a.0`, `a.1`, …);
only an empty array is kept as an opaque leaf value under its own dot-joined
key.  Concretely, diffing `{}` against `{a: ["x","y"]}` yields
`added = {"a.0": "x", "a.1": "y"}`. -/
theorem flatten_array_per_index :
    (∀ key (elems : List JValue), elems ≠ [] → (∀ v ∈ elems, isLeaf v = true) →
        flattenUnder key (.arr elems)
          = (elems.enumFrom 0).map (fun p => (key ++ "." ++ toString p.1, p.2))) ∧
    (∀ key, flattenUnder key (.arr []) = [(key, .arr [])]) ∧
    (detectStringChanges [] [("a", JValue.arr [.str "x", .str "y"])]).added
      = [("a.0", .str "x"), ("a.1", .str "y")] := by
  refine ⟨?_, fun key => rfl, rfl⟩
  intro key elems hne h
  cases elems with
  | nil => exact absurd rfl hne
  | cons e es => exact flattenElems_of_leaves key (e :: es) 0 h

theorem flatten_array_per_index_witness :
    ([JValue.str "x"] ≠ []) ∧
    flattenUnder "k" (JValue.arr [.str "x"])
      = (([JValue.str "x"]).enumFrom 0).map (fun p => ("k" ++ "." ++ toString p.1, p.2)) :=
  ⟨by simp, flatten_array_per_index.1 "k" [JValue.str "x"] (by simp)
    (by intro v hv; rw [List.mem_singleton.mp hv]; rfl)⟩

/-- Claim C8 (counterexample): a key deleted between the two revisions is
mapped in the `deleted` map to the `undefined` marker (`none`), not to the
value it had in the base document: deleting `a` (base value `"x"`) yields
`deleted = {a: undefined}` and not `{a: "x"}`. -/
theorem deleted_value_is_undefined_cex :
    (detectStringChanges [("a", JValue.str "x")] []).deleted
      = [("a", (none : Option JValue))] ∧
    ("a", (some (JValue.str "x") : Option JValue))
      ∉ (detectStringChanges [("a", JValue.str "x")] []).deleted := by
  refine ⟨rfl, ?_⟩
  intro h
  rw [show (detectStringChanges [("a", JValue.str "x")] []).deleted
      = [("a", (none : Option JValue))] from rfl] at h
  rcases List.mem_cons.mp h with h' | h'
  · exact Option.noConfusion (congrArg Prod.snd h')
  · exact absurd h' (List.not_mem_nil _)

/-- Claim C8 (amended): every entry of the `deleted` map carries the
JavaScript `undefined` marker rather than a value — `deep-object-diff`'s
`deletedDiff` maps each deleted key to `undefined`; the `deleted` key-set is
still exactly the keys present in the base document and absent from the
current one. -/
theorem deleted_maps_to_undefined :
    (∀ base current k (w : Option JValue),
        (k, w) ∈ (detectStringChanges base current).deleted → w = none) ∧
    (∀ (A B : List (String × String)) k,
        k ∈ keysOf (detectStringChanges (strDoc A) (strDoc B)).deleted ↔
          (k ∈ keysOf A ∧ k ∉ keysOf B)) := by
  constructor
  · intro base current k w h
    rw [detectStringChanges_deleted] at h
    exact mem_deletedDiff_none _ _ _ _ h
  · exact dsc_deleted_mem

theorem deleted_maps_to_undefined_witness :
    "a" ∈ keysOf (detectStringChanges (strDoc [("a", "x")]) (strDoc [])).deleted :=
  (deleted_maps_to_undefined.2 [("a", "x")] [] "a").mpr ⟨by decide, by decide⟩

/-! ### Translation gateway (`translateChanges` / `mockTranslateAPI`) -/

mutual

/-- JavaScript string interpolation of a value (template literal
`` `[${locale.toUpperCase()}] ${value}` ``): a string interpolates as itself,
an object as `[object Object]`, an array as its comma-joined elements. -/
def jsString : JValue → String
  | .str s => s
  | .obj _ => "[object Object]"
  | .arr es => jsStringElems es

/-- Comma-joined interpolation of array elements. -/
def jsStringElems : List JValue → String
  | [] => ""
  | [v] => jsString v
  | v :: rest => jsString v ++ "," ++ jsStringElems rest

end

/-- JavaScript `String.prototype.toUpperCase` restricted to ASCII letters,
which covers the locale codes it is applied to. -/
def jsToUpperChar (c : Char) : Char :=
  if 'a' ≤ c ∧ c ≤ 'z' then Char.ofNat (c.toNat - 32) else c

/-- Uppercase a string (model of `locale.toUpperCase()`). -/
def jsToUpper (s : String) : String :=
  ⟨s.data.map jsToUpperChar⟩

/-- JavaScript object property assignment `m[k] = v` on an object represented
as an entry list: an existing key keeps its position and gets the new value, a
new key is appended. -/
def objSet {α : Type} (m : List (String × α)) (k : String) (v : α) : List (String × α) :=
  if k ∈ keysOf m then m.map (fun kv => if kv.1 = k then (k, v) else kv)
  else m ++ [(k, v)]

/-- The per-locale object built by `mockTranslateAPI`: assign a prefixed
translation for every `added` entry, then for every `updated` entry
(`deleted` entries are never written). -/
def translateLocaleEntries (changes : ChangeSet) (locale : String) : List (String × String) :=
  (changes.added ++ changes.updated).foldl
    (fun m kv => objSet m kv.1 ("[" ++ jsToUpper locale ++ "] " ++ jsString kv.2)) []

/-- `mockTranslateAPI(changes, projectApiKey, targetLocales)`
(localization.js): for each target locale, build the object of prefixed
translations of the `added` and `updated` entries; the `projectApiKey` only
affects logging. -/
def mockTranslateAPI (changes : ChangeSet) (_projectApiKey : String)
    (targetLocales : List String) : List (String × List (String × String)) :=
  targetLocales.foldl (fun acc locale => objSet acc locale (translateLocaleEntries changes locale)) []

/-- `translateChanges(changes, projectApiKey, targetLocales)`
(localization.js): calls `mockTranslateAPI` and returns `null` only if it
throws, which the mock never does, so the result is always the mock's value. -/
def translateChanges (changes : ChangeSet) (projectApiKey : String)
    (targetLocales : List String) : Option (List (String × List (String × String))) :=
  some (mockTranslateAPI changes projectApiKey targetLocales)

theorem keysOf_append {α : Type} (m₁ m₂ : List (String × α)) :
    keysOf (m₁ ++ m₂) = keysOf m₁ ++ keysOf m₂ := by
  simp [keysOf]

theorem objSet_fresh {α : Type} (m : List (String × α)) (k : String) (v : α)
    (h : k ∉ keysOf m) : objSet m k v = m ++ [(k, v)] := by
  rw [objSet, if_neg h]

theorem foldl_objSet_entries {α β : Type} (g : String × α → β) (es : List (String × α)) :
    ∀ acc : List (String × β), (∀ kv ∈ es, kv.1 ∉ keysOf acc) → (keysOf es).Nodup →
      es.foldl (fun m kv => objSet m kv.1 (g kv)) acc
        = acc ++ es.map (fun kv => (kv.1, g kv)) := by
  induction es with
  | nil =>
    intro acc _ _
    simp
  | cons e rest ih =>
    intro acc hdisj hnd
    rw [keysOf_cons] at hnd
    obtain ⟨hefresh, hndrest⟩ := List.nodup_cons.mp hnd
    rw [List.foldl_cons, objSet_fresh acc e.1 (g e) (hdisj e (List.mem_cons_self _ _)),
      ih (acc ++ [(e.1, g e)]) ?_ hndrest]
    · simp
    · intro kv hkv
      rw [keysOf_append]
      intro hmem
      rcases List.mem_append.mp hmem with hmem | hmem
      · exact hdisj kv (List.mem_cons_of_mem _ hkv) hmem
      · rcases List.mem_singleton.mp hmem with hmem
        exact hefresh (hmem ▸ List.mem_map_of_mem Prod.fst hkv)

theorem foldl_objSet_locales {β : Type} (g : String → β) (ls : List String) :
    ∀ acc : List (String × β), (∀ l ∈ ls, l ∉ keysOf acc) → ls.Nodup →
      ls.foldl (fun m l => objSet m l (g l)) acc = acc ++ ls.map (fun l => (l, g l)) := by
  induction ls with
  | nil =>
    intro acc _ _
    simp
  | cons l rest ih =>
    intro acc hdisj hnd
    obtain ⟨hlfresh, hndrest⟩ := List.nodup_cons.mp hnd
    rw [List.foldl_cons, objSet_fresh acc l (g l) (hdisj l (List.mem_cons_self _ _)),
      ih (acc ++ [(l, g l)]) ?_ hndrest]
    · simp
    · intro l' hl'
      rw [keysOf_append]
      intro hmem
      rcases List.mem_append.mp hmem with hmem | hmem
      · exact hdisj l' (List.mem_cons_of_mem _ hl') hmem
      · have hmem' : l' = l := List.mem_singleton.mp hmem
        exact hlfresh (hmem' ▸ hl')

theorem translateLocaleEntries_eq (changes : ChangeSet) (locale : String)
    (hnd : (keysOf (changes.added ++ changes.updated)).Nodup) :
    translateLocaleEntries changes locale
      = (changes.added ++ changes.updated).map
          (fun kv => (kv.1, "[" ++ jsToUpper locale ++ "] " ++ jsString kv.2)) := by
  rw [translateLocaleEntries,
    foldl_objSet_entries _ _ [] (by intro kv _ h; exact absurd h (List.not_mem_nil _)) hnd]
  rfl

theorem keysOf_map_entries {α β : Type} (f : String × α → β) (es : List (String × α)) :
    keysOf (es.map (fun kv => (kv.1, f kv))) = keysOf es := by
  simp [keysOf, List.map_map, Function.comp]

/-- Claim C5: for every ChangeSet (whose `added`/`updated` key-sets satisfy
the ChangeSet uniqueness invariant) and every list of distinct target locales,
the stub translation returns a map whose locale keys are exactly the given
target locales, where each locale maps every key of `added ∪ updated` to the
string `"[<LOCALE uppercased>] <value>"` and contains no deleted key; in
particular `added = {greeting: "Hi"}` with locales `["es","fr"]` yields
exactly `{es: {greeting: "[ES] Hi"}, fr: {greeting: "[FR] Hi"}}`. -/
theorem mockTranslateAPI_spec :
    (∀ (changes : ChangeSet) (apiKey : String) (locales : List String),
      locales.Nodup → (keysOf (changes.added ++ changes.updated)).Nodup →
      mockTranslateAPI changes apiKey locales
        = locales.map (fun L =>
            (L, (changes.added ++ changes.updated).map
                  (fun kv => (kv.1, "[" ++ jsToUpper L ++ "] " ++ jsString kv.2))))) ∧
    (∀ (changes : ChangeSet) (apiKey : String) (locales : List String),
      locales.Nodup → (keysOf (changes.added ++ changes.updated)).Nodup →
      ∀ L m, (L, m) ∈ mockTranslateAPI changes apiKey locales →
        ∀ k, k ∈ keysOf changes.deleted → k ∉ keysOf (changes.added ++ changes.updated) →
          k ∉ keysOf m) ∧
    mockTranslateAPI { added := [("greeting", JValue.str "Hi")], updated := [], deleted := [] }
        "" ["es", "fr"]
      = [("es", [("greeting", "[ES] Hi")]), ("fr", [("greeting", "[FR] Hi")])] := by
  have hmain : ∀ (changes : ChangeSet) (apiKey : String) (locales : List String),
      locales.Nodup → (keysOf (changes.added ++ changes.updated)).Nodup →
      mockTranslateAPI changes apiKey locales
        = locales.map (fun L =>
            (L, (changes.added ++ changes.updated).map
                  (fun kv => (kv.1, "[" ++ jsToUpper L ++ "] " ++ jsString kv.2)))) := by
    intro changes apiKey locales hloc hnd
    rw [mockTranslateAPI,
      foldl_objSet_locales _ _ [] (by intro l _ h; exact absurd h (List.not_mem_nil _)) hloc,
      List.nil_append]
    exact List.map_congr_left (fun L _ => by rw [translateLocaleEntries_eq changes L hnd])
  refine ⟨hmain, ?_, rfl⟩
  intro changes apiKey locales hloc hnd L m hmem k _ hknotin
  rw [hmain changes apiKey locales hloc hnd] at hmem
  obtain ⟨L', _, hpair⟩ := List.mem_map.mp hmem
  have hm : m = (changes.added ++ changes.updated).map
      (fun kv => (kv.1, "[" ++ jsToUpper L' ++ "] " ++ jsString kv.2)) :=
    (congrArg Prod.snd hpair).symm
  rw [hm, keysOf_map_entries]
  exact hknotin

theorem mockTranslateAPI_spec_witness :
    (["es", "fr"] : List String).Nodup ∧
    (keysOf ([("greeting", JValue.str "Hi")] ++ ([] : List (String × JValue)))).Nodup ∧
    mockTranslateAPI { added := [("greeting", JValue.str "Hi")], updated := [], deleted := [] }
        "key" ["es", "fr"]
      = (["es", "fr"] : List String).map (fun L =>
          (L, ([("greeting", JValue.str "Hi")] ++ ([] : List (String × JValue))).map
                (fun kv => (kv.1, "[" ++ jsToUpper L ++ "] " ++ jsString kv.2)))) :=
  ⟨by decide, by decide, mockTranslateAPI_spec.1 _ "key" _ (by decide) (by decide)⟩

/-! ### Branch pattern matching (`isTargetBranch`, constants.js)

A pattern containing `*` is turned into the regular expression
`'^' + pattern.replace(/\*/g, '.*') + '$'` and tested against the branch
name; a pattern without `*` must be strictly equal to the branch name. -/

/-- The configuration fields used by `isTargetBranch` (an array of branch
pattern strings, as produced by `validateConfig`). -/
structure BranchConfig where
  targetBranches : List String

/-- The syntax characters of an ECMAScript regular expression; every other
character of a regex source is a literal matching itself. -/
def regexSyntaxChars : List Char :=
  ['^', '$', '\\', '.', '*', '+', '?', '(', ')', '[', ']', '\x7b', '\x7d', '|']

/-- The ECMAScript line terminators, which the regex `.` metacharacter — and
hence the `.*` each wildcard is replaced by — does not match. -/
def isLineTerminator (c : Char) : Bool :=
  c = '\n' || c = '\r' || c = '\u2028' || c = '\u2029'

/-- Matching of the constructed anchored regular expression against the
branch name, both as character lists, for patterns whose characters are
regex literals, `.` or `*`.  On that fragment this is the exact ECMAScript
semantics of `'^' + pattern.replace(/\*/g, '.*') + '$'`: each `*` of the
pattern was replaced by `.*` and matches any (possibly empty) run of
non-line-terminator characters, a `.` matches any single non-line-terminator
character, and every other character matches itself.  A wildcard pattern
containing any other regex syntax character (`+`, `?`, `(`, `[`, `\`, …)
yields a constructed regex with further semantics — or a `SyntaxError` from
the `RegExp` constructor, which would propagate to `isTargetBranch`'s
caller — and is outside this embedding; every theorem below that involves
wildcard matching carries the corresponding fragment hypothesis. -/
def regexGlobMatch (ps s : List Char) : Bool :=
  match ps, s with
  | [], s => s.isEmpty
  | p :: ps', s =>
    if p = '*' then
      regexGlobMatch ps' s ||
        (match s with
         | [] => false
         | c :: s' => !isLineTerminator c && regexGlobMatch (p :: ps') s')
    else
      match s with
      | [] => false
      | c :: s' =>
        (if p = '.' then !isLineTerminator c else p == c) && regexGlobMatch ps' s'
termination_by (ps.length, s.length)

/-- `isTargetBranch(branchName, config)` (constants.js): the branch is
monitored iff some configured pattern matches — via the constructed regex when
the pattern contains a wildcard (exact on the fragment `regexGlobMatch`
models), by strict string equality otherwise.  (`pattern.includes("*")` is
single-character containment.) -/
def isTargetBranch (branchName : String) (config : BranchConfig) : Bool :=
  config.targetBranches.any (fun pattern =>
    if pattern.data.contains '*' then regexGlobMatch pattern.data branchName.data
    else branchName == pattern)

/-- Glob matching as the specification words it: `*` matches any substring,
anchored at both ends, and every other pattern character matches itself
literally. -/
def globMatch (ps s : List Char) : Bool :=
  match ps, s with
  | [], s => s.isEmpty
  | p :: ps', s =>
    if p = '*' then
      globMatch ps' s ||
        (match s with
         | [] => false
         | _ :: s' => globMatch (p :: ps') s')
    else
      match s with
      | [] => false
      | c :: s' => (p == c) && globMatch ps' s'
termination_by (ps.length, s.length)

/-- The specification's branch-matching predicate: exact equality for
wildcard-free patterns, glob matching for wildcard patterns. -/
def specTargetBranch (branchName : String) (config : BranchConfig) : Bool :=
  config.targetBranches.any (fun pattern =>
    if pattern.data.contains '*' then globMatch pattern.data branchName.data
    else branchName == pattern)

/-- A wildcard pattern whose constructed regex coincides with the glob
reading: besides the wildcard `*` itself it contains no regex syntax
character (in particular no `.`, no quantifier, no group, class, escape or
alternation). -/
def globSafePattern (p : String) : Bool :=
  p.data.all (fun c => !regexSyntaxChars.contains c || c == '*')

theorem regexGlobMatch_eq_globMatch (ps : List Char)
    (hps : ∀ c ∈ ps, regexSyntaxChars.contains c = false ∨ c = '*') :
    ∀ s : List Char, (∀ c ∈ s, isLineTerminator c = false) →
      regexGlobMatch ps s = globMatch ps s := by
  induction ps with
  | nil =>
    intro s _
    rw [regexGlobMatch, globMatch]
  | cons p ps' ih =>
    have hps' : ∀ c ∈ ps', regexSyntaxChars.contains c = false ∨ c = '*' :=
      fun c hc => hps c (List.mem_cons_of_mem _ hc)
    by_cases hp : p = '*'
    · subst hp
      intro s
      induction s with
      | nil =>
        intro _
        rw [regexGlobMatch, globMatch, if_pos rfl, if_pos rfl,
          ih hps' [] (fun c hc => absurd hc (List.not_mem_nil _))]
      | cons c s' ihs =>
        intro hs
        have hc : isLineTerminator c = false := hs c (List.mem_cons_self _ _)
        have ihs' := ihs (fun b hb => hs b (List.mem_cons_of_mem _ hb))
        rw [regexGlobMatch, globMatch, if_pos rfl, if_pos rfl,
          ih hps' (c :: s') hs]
        simp [hc, ihs']
    · have hcont : regexSyntaxChars.contains p = false := by
        rcases hps p (List.mem_cons_self _ _) with h | h
        · exact h
        · exact absurd h hp
      have hpd : ¬ p = '.' := by
        intro h
        rw [h] at hcont
        exact absurd hcont (by decide)
      intro s hs
      cases s with
      | nil => rw [regexGlobMatch, globMatch, if_neg hp, if_neg hp]
      | cons c s' =>
        rw [regexGlobMatch, globMatch, if_neg hp, if_neg hp]
        simp [hpd, ih hps' s' (fun b hb => hs b (List.mem_cons_of_mem _ hb))]

/-- Claim C9 (counterexample): with the configured pattern `v1.*` (a wildcard
pattern containing a literal dot) the code reports branch `v1X` as monitored —
the constructed regex lets `.` match any character — whereas under the claimed
glob reading (`*` matches any substring, other characters literal) `v1X`
matches no pattern. -/
theorem isTargetBranch_dot_cex :
    isTargetBranch "v1X" ⟨["v1.*"]⟩ = true ∧
    specTargetBranch "v1X" ⟨["v1.*"]⟩ = false := by
  constructor
  · simp [isTargetBranch, regexGlobMatch, isLineTerminator]
  · simp [specTargetBranch, globMatch]

theorem any_congr_of_mem {α : Type} (l : List α) (f g : α → Bool)
    (h : ∀ a ∈ l, f a = g a) : l.any f = l.any g := by
  induction l with
  | nil => rfl
  | cons a t ih =>
    simp [List.any_cons, h a (List.mem_cons_self _ _),
      ih (fun b hb => h b (List.mem_cons_of_mem _ hb))]

/-- Claim C9 (amended): `isTargetBranch` returns true iff the branch name
matches some configured pattern, where a wildcard-free pattern matches only by
exact string equality and a wildcard pattern matches as the anchored regex
obtained by replacing each `*` with `.*` — so its remaining characters are
regex syntax, not glob literals.  The claimed glob reading (`*` matches any
substring, every other character literal) holds exactly for configurations
whose wildcard patterns contain no regex syntax character other than the
wildcard itself and for branch names without line terminators: a `.` in a
wildcard pattern matches any single non-line-terminator character instead of
a literal dot, other metacharacters (`+`, `?`, `(`, `[`, `\`, …) keep their
regex meaning or make the `RegExp` constructor throw, and `.*` does not cross
line terminators.  The claimed examples hold: `release-42` matches
`release-*`, `main` matches `["main","develop"]`, and `feature/x` does not
match `["main"]`. -/
theorem isTargetBranch_spec :
    (∀ (branch : String) (config : BranchConfig),
      (∀ p ∈ config.targetBranches, p.data.contains '*' = true → globSafePattern p = true) →
      (∀ c ∈ branch.data, isLineTerminator c = false) →
      isTargetBranch branch config = specTargetBranch branch config) ∧
    isTargetBranch "release-42" ⟨["release-*"]⟩ = true ∧
    isTargetBranch "main" ⟨["main", "develop"]⟩ = true ∧
    isTargetBranch "feature/x" ⟨["main"]⟩ = false := by
  refine ⟨?_, by simp [isTargetBranch, regexGlobMatch, isLineTerminator], by decide, by decide⟩
  intro branch config hpat hbr
  obtain ⟨tbs⟩ := config
  exact any_congr_of_mem tbs _ _ (fun p hp => by
    by_cases hc : p.data.contains '*' = true
    · simp only [if_pos hc]
      refine regexGlobMatch_eq_globMatch p.data ?_ branch.data hbr
      intro ch hch
      have hsafe := hpat p hp hc
      rw [globSafePattern, List.all_eq_true] at hsafe
      have h := hsafe ch hch
      simp only [Bool.or_eq_true, Bool.not_eq_true', beq_iff_eq] at h
      exact h
    · simp only [if_neg hc])

theorem isTargetBranch_spec_witness :
    (∀ p ∈ ["release-*"], p.data.contains '*' = true → globSafePattern p = true) ∧
    (∀ c ∈ "release-42".data, isLineTerminator c = false) ∧
    isTargetBranch "release-42" ⟨["release-*"]⟩
      = specTargetBranch "release-42" ⟨["release-*"]⟩ :=
  ⟨by decide, by decide,
    isTargetBranch_spec.1 "release-42" ⟨["release-*"]⟩ (by decide) (by decide)⟩

/-! ### Configuration validation (`DEFAULT_CONFIG` / `validateConfig`,
constants.js)

The parsed configuration document is an arbitrary JavaScript object; each of
the six known fields is either absent or holds an arbitrary value.  (Extra
fields of the document survive the object spread but are never read.) -/

/-- A parsed configuration document, projected to the six fields
`validateConfig` examines (`none` = the field is absent). -/
structure RawConfig where
  targetBranches : Option JValue := none
  sourceFile : Option JValue := none
  sourceLocale : Option JValue := none
  targetLocales : Option JValue := none
  outputDir : Option JValue := none
  projectApiKey : Option JValue := none

/-- The validated configuration: all six fields present. -/
structure ValidatedConfig where
  targetBranches : JValue
  sourceFile : JValue
  sourceLocale : JValue
  targetLocales : JValue
  outputDir : JValue
  projectApiKey : JValue

/-- `DEFAULT_CONFIG` (constants.js). -/
def DEFAULT_CONFIG : ValidatedConfig :=
  { targetBranches := .arr [.str "main"]
    sourceFile := .str "src/locales/en.json"
    sourceLocale := .str "en"
    targetLocales := .arr [.str "fr", .str "it"]
    outputDir := .str "locales"
    projectApiKey := .str "" }

/-- `Array.isArray(v)`. -/
def isArrayJ : JValue → Bool
  | .arr _ => true
  | _ => false

/-- `typeof v === "string"`. -/
def isStringJ : JValue → Bool
  | .str _ => true
  | _ => false

/-- `validateConfig(config)` (constants.js): spread the document over
`DEFAULT_CONFIG` field by field, then replace each field of the wrong type by
its default.  The function is total — no input makes it throw. -/
def validateConfig (config : RawConfig) : ValidatedConfig :=
  let validated : ValidatedConfig :=
    { targetBranches := config.targetBranches.getD DEFAULT_CONFIG.targetBranches
      sourceFile := config.sourceFile.getD DEFAULT_CONFIG.sourceFile
      sourceLocale := config.sourceLocale.getD DEFAULT_CONFIG.sourceLocale
      targetLocales := config.targetLocales.getD DEFAULT_CONFIG.targetLocales
      outputDir := config.outputDir.getD DEFAULT_CONFIG.outputDir
      projectApiKey := config.projectApiKey.getD DEFAULT_CONFIG.projectApiKey }
  { targetBranches :=
      if isArrayJ validated.targetBranches then validated.targetBranches
      else DEFAULT_CONFIG.targetBranches
    sourceFile :=
      if isStringJ validated.sourceFile then validated.sourceFile
      else DEFAULT_CONFIG.sourceFile
    sourceLocale :=
      if isStringJ validated.sourceLocale then validated.sourceLocale
      else DEFAULT_CONFIG.sourceLocale
    targetLocales :=
      if isArrayJ validated.targetLocales then validated.targetLocales
      else DEFAULT_CONFIG.targetLocales
    outputDir :=
      if isStringJ validated.outputDir then validated.outputDir
      else DEFAULT_CONFIG.outputDir
    projectApiKey :=
      if isStringJ validated.projectApiKey then validated.projectApiKey
      else DEFAULT_CONFIG.projectApiKey }

/-- Claim C10: for every parsed configuration document, `validateConfig`
(a total function — no input makes it throw) replaces every field that is
absent or of the wrong type (`targetBranches`/`targetLocales` not arrays, the
four path/string fields not strings) by its hard-coded default, and keeps
every well-typed supplied field.  Stated field by field: kept when supplied
well-typed, defaulted when supplied ill-typed, defaulted when absent. -/
theorem validateConfig_spec (config : RawConfig) :
    ((∀ v, config.targetBranches = some v → isArrayJ v = true →
        (validateConfig config).targetBranches = v) ∧
     (∀ v, config.targetBranches = some v → isArrayJ v = false →
        (validateConfig config).targetBranches = DEFAULT_CONFIG.targetBranches) ∧
     (config.targetBranches = none →
        (validateConfig config).targetBranches = DEFAULT_CONFIG.targetBranches)) ∧
    ((∀ v, config.sourceFile = some v → isStringJ v = true →
        (validateConfig config).sourceFile = v) ∧
     (∀ v, config.sourceFile = some v → isStringJ v = false →
        (validateConfig config).sourceFile = DEFAULT_CONFIG.sourceFile) ∧
     (config.sourceFile = none →
        (validateConfig config).sourceFile = DEFAULT_CONFIG.sourceFile)) ∧
    ((∀ v, config.sourceLocale = some v → isStringJ v = true →
        (validateConfig config).sourceLocale = v) ∧
     (∀ v, config.sourceLocale = some v → isStringJ v = false →
        (validateConfig config).sourceLocale = DEFAULT_CONFIG.sourceLocale) ∧
     (config.sourceLocale = none →
        (validateConfig config).sourceLocale = DEFAULT_CONFIG.sourceLocale)) ∧
    ((∀ v, config.targetLocales = some v → isArrayJ v = true →
        (validateConfig config).targetLocales = v) ∧
     (∀ v, config.targetLocales = some v → isArrayJ v = false →
        (validateConfig config).targetLocales = DEFAULT_CONFIG.targetLocales) ∧
     (config.targetLocales = none →
        (validateConfig config).targetLocales = DEFAULT_CONFIG.targetLocales)) ∧
    ((∀ v, config.outputDir = some v → isStringJ v = true →
        (validateConfig config).outputDir = v) ∧
     (∀ v, config.outputDir = some v → isStringJ v = false →
        (validateConfig config).outputDir = DEFAULT_CONFIG.outputDir) ∧
     (config.outputDir = none →
        (validateConfig config).outputDir = DEFAULT_CONFIG.outputDir)) ∧
    ((∀ v, config.projectApiKey = some v → isStringJ v = true →
        (validateConfig config).projectApiKey = v) ∧
     (∀ v, config.projectApiKey = some v → isStringJ v = false →
        (validateConfig config).projectApiKey = DEFAULT_CONFIG.projectApiKey) ∧
     (config.projectApiKey = none →
        (validateConfig config).projectApiKey = DEFAULT_CONFIG.projectApiKey)) := by
  refine ⟨⟨?_, ?_, ?_⟩, ⟨?_, ?_, ?_⟩, ⟨?_, ?_, ?_⟩, ⟨?_, ?_, ?_⟩, ⟨?_, ?_, ?_⟩, ⟨?_, ?_, ?_⟩⟩
  all_goals intros
  all_goals simp_all [validateConfig]

theorem validateConfig_spec_witness :
    ({ targetBranches := some (JValue.str "oops"), sourceFile := some (JValue.str "x"),
       sourceLocale := none, targetLocales := none, outputDir := none,
       projectApiKey := none : RawConfig }.targetBranches = some (JValue.str "oops")) ∧
    isArrayJ (JValue.str "oops") = false ∧
    (validateConfig
        { targetBranches := some (JValue.str "oops"), sourceFile := some (JValue.str "x"),
          sourceLocale := none, targetLocales := none, outputDir := none,
          projectApiKey := none }).targetBranches = DEFAULT_CONFIG.targetBranches ∧
    (validateConfig
        { targetBranches := some (JValue.str "oops"), sourceFile := some (JValue.str "x"),
          sourceLocale := none, targetLocales := none, outputDir := none,
          projectApiKey := none }).sourceFile = JValue.str "x" :=
  ⟨rfl, rfl,
    (validateConfig_spec _).1.2.1 (JValue.str "oops") rfl rfl,
    (validateConfig_spec _).2.1.1 (JValue.str "x") rfl rfl⟩

/-! ### Effect model for the remote-call pipeline

The effectful functions are embedded as pure functions over an explicit
environment of remote-call outcomes; each returns its computed value together
with the ordered trace of remote calls it issues. -/

/-- One side of a pull request (`pull_request.head` / `pull_request.base`). -/
structure PRBranch where
  ref : String
  sha : String
deriving DecidableEq, Repr

/-- The pull-request snapshot taken from the triggering event. -/
structure PullRequest where
  number : Nat
  head : PRBranch
  base : PRBranch
deriving DecidableEq, Repr

/-- A remote call issued during a pass (the payload fields the claims are
about; descriptions, author identity and log output are not traced). -/
inductive Act where
  | fetchFile (path ref : String)
  | getRef (ref : String)
  | getTree (sha : String)
  | createBlob (content : String)
  | createTree (baseTree : String) (items : List (String × String))
  | createCommit (message : String) (tree : String) (parents : List String)
  | updateRef (ref : String) (sha : String) (force : Bool)
  | statusCall (sha : String) (state : String) (ok : Bool)
  | translateCall
deriving DecidableEq, Repr

/-- Outcomes of the git-object API (all calls succeed; the `catch` branch of
`commitTranslationsToPR`, which returns `{success: false}` without creating a
commit, is outside the success path the claims describe): the current SHA a
ref resolves to, and the SHAs the content-addressed object store assigns to
created blobs, trees and commits. -/
structure GitEnv where
  refSha : String → String
  blobSha : String → String
  newTreeSha : String → List (String × String) → String
  newCommitSha : String → String → List String → String

/-- JSON string escaping for the characters occurring in translated values
(backslash, quote, and common control characters; other control characters
would be escaped as unicode sequences by `JSON.stringify`, which no claim
relies on). -/
def jsonEscapeChar (c : Char) : String :=
  if c = '\\' then "\\\\"
  else if c = '"' then "\\\""
  else if c = '\n' then "\\n"
  else if c = '\r' then "\\r"
  else if c = '\t' then "\\t"
  else String.singleton c

/-- Escape a string for inclusion in a JSON document. -/
def jsonEscaped (s : String) : String :=
  String.join (s.data.map jsonEscapeChar)

/-- `JSON.stringify(strings, null, 2)` for a flat string map. -/
def jsonStringify2 (m : List (String × String)) : String :=
  match m with
  | [] => "\x7b\x7d"
  | _ =>
    "\x7b\n"
      ++ String.intercalate ",\n"
          (m.map (fun kv => "  \"" ++ jsonEscaped kv.1 ++ "\": \"" ++ jsonEscaped kv.2 ++ "\""))
      ++ "\n\x7d"

/-- `generateCommitMessage(changes, targetLocales)` (localization.js); the
leading characters reproduce the source file's bytes verbatim. -/
def generateCommitMessage (changes : ChangeSet) (targetLocales : List String) : String :=
  let parts : List String :=
    (if changes.added.length > 0
      then ["Add " ++ toString changes.added.length ++ " new strings"] else [])
    ++ (if changes.updated.length > 0
      then ["Update " ++ toString changes.updated.length ++ " strings"] else [])
    ++ (if changes.deleted.length > 0
      then ["Remove " ++ toString changes.deleted.length ++ " strings"] else [])
  let changeSummary := String.intercalate ", " parts
  let localeList := String.intercalate ", " targetLocales
  "üåç Localization: " ++ changeSummary ++ "\n\nLocales: " ++ localeList
    ++ "\n\nGenerated by Vocoder localization app."

/-- The result object of `commitTranslationsToPR`. -/
structure CommitResult where
  success : Bool
  commitSha : Option String
  filesCommitted : Option Nat
  error : Option String
deriving DecidableEq, Repr

/-- `commitTranslationsToPR(event, pullRequest, translations, outputDir,
changes)` (localization.js), success path: re-read the branch head, read its
tree, create one blob per locale file, build a tree based on the re-read head,
create a commit whose sole parent is the re-read head, and force-update the
branch ref to the new commit. -/
def commitTranslationsToPR (env : GitEnv) (pullRequest : PullRequest)
    (translations : List (String × List (String × String))) (outputDir : String)
    (changes : ChangeSet) : List Act × CommitResult :=
  let latestSha := env.refSha ("heads/" ++ pullRequest.head.ref)
  let blobActs := translations.map (fun lv => Act.createBlob (jsonStringify2 lv.2))
  let treeItems := translations.map (fun lv =>
    (outputDir ++ "/" ++ lv.1 ++ ".json", env.blobSha (jsonStringify2 lv.2)))
  let commitMessage := generateCommitMessage changes (keysOf translations)
  let newTree := env.newTreeSha latestSha treeItems
  let newCommit := env.newCommitSha commitMessage newTree [latestSha]
  ([Act.getRef ("heads/" ++ pullRequest.head.ref), Act.getTree latestSha]
      ++ blobActs
      ++ [Act.createTree latestSha treeItems,
          Act.createCommit commitMessage newTree [latestSha],
          Act.updateRef ("heads/" ++ pullRequest.head.ref) newCommit true],
   { success := true, commitSha := some newCommit,
     filesCommitted := some translations.length, error := none })

/-- Modelled from the spec: the hosting service's ref-update semantics (an
external collaborator, §4.4 step 5) — a forced update is accepted regardless
of the ref's current value; an unforced update is accepted only when the
current value matches the expected one. -/
def refUpdateAccepted (force : Bool) (currentVal expectedVal : String) : Bool :=
  force || (currentVal == expectedVal)

/-- Claim C2: in every invocation of `commitTranslationsToPR`, the created
commit's sole parent and the base of the newly built tree are the head SHA
freshly re-read from the branch ref (its output is independent of the
event-captured head/base SHAs, which it never reads), and the branch ref
update is issued with `force: true`, which the ref-update semantics accept
whatever the ref's current value is. -/
theorem commitTranslationsToPR_fresh_head (env : GitEnv) (pr : PullRequest)
    (translations : List (String × List (String × String))) (outputDir : String)
    (changes : ChangeSet) :
    (∀ msg tree parents,
      Act.createCommit msg tree parents
          ∈ (commitTranslationsToPR env pr translations outputDir changes).1 →
      parents = [env.refSha ("heads/" ++ pr.head.ref)]) ∧
    (∃ msg tree,
      Act.createCommit msg tree [env.refSha ("heads/" ++ pr.head.ref)]
        ∈ (commitTranslationsToPR env pr translations outputDir changes).1) ∧
    (∀ base items,
      Act.createTree base items
          ∈ (commitTranslationsToPR env pr translations outputDir changes).1 →
      base = env.refSha ("heads/" ++ pr.head.ref)) ∧
    (∀ r s f,
      Act.updateRef r s f
          ∈ (commitTranslationsToPR env pr translations outputDir changes).1 →
      f = true) ∧
    (∃ s, Act.updateRef ("heads/" ++ pr.head.ref) s true
        ∈ (commitTranslationsToPR env pr translations outputDir changes).1) ∧
    (∀ eventHeadSha eventBaseSha,
      commitTranslationsToPR env
          { pr with head := { pr.head with sha := eventHeadSha },
                    base := { pr.base with sha := eventBaseSha } }
          translations outputDir changes
        = commitTranslationsToPR env pr translations outputDir changes) ∧
    (∀ currentVal readVal, refUpdateAccepted true currentVal readVal = true) := by
  refine ⟨?_, ?_, ?_, ?_, ?_, ?_, ?_⟩
  · intro msg tree parents h
    simp [commitTranslationsToPR] at h
    exact h.2.2
  · exact ⟨_, _, by
      simp only [commitTranslationsToPR, List.mem_append, List.mem_cons]
      exact Or.inr (Or.inr (Or.inl rfl))⟩
  · intro base items h
    simp [commitTranslationsToPR] at h
    exact h.1
  · intro r s f h
    simp [commitTranslationsToPR] at h
    exact h.2.2
  · exact ⟨_, by
      simp only [commitTranslationsToPR, List.mem_append, List.mem_cons]
      exact Or.inr (Or.inr (Or.inr (Or.inl rfl)))⟩
  · intro eventHeadSha eventBaseSha
    rfl
  · intro currentVal readVal
    rfl

/-- Concrete git environment used by witnesses. -/
def gitEnv0 : GitEnv :=
  ⟨fun _ => "head1", fun _ => "blob1", fun _ _ => "tree1", fun _ _ _ => "commit1"⟩

/-- Concrete pull request used by witnesses (its event-captured SHAs differ
from the current head the environment reports). -/
def pr0 : PullRequest :=
  ⟨1, ⟨"feature", "evhead"⟩, ⟨"main", "evbase"⟩⟩

/-- Concrete change set used by witnesses. -/
def changes0 : ChangeSet := ⟨[("a", JValue.str "1")], [], []⟩

/-- Concrete translation result used by witnesses. -/
def translations0 : List (String × List (String × String)) := [("es", [("a", "[ES] 1")])]

theorem commitTranslationsToPR_fresh_head_witness :
    Act.createCommit (generateCommitMessage changes0 ["es"]) "tree1" ["head1"]
        ∈ (commitTranslationsToPR gitEnv0 pr0 translations0 "locales" changes0).1 ∧
    ["head1"] = [gitEnv0.refSha ("heads/" ++ pr0.head.ref)] :=
  ⟨by decide,
    (commitTranslationsToPR_fresh_head gitEnv0 pr0 translations0 "locales" changes0).1
      (generateCommitMessage changes0 ["es"]) "tree1" ["head1"] (by decide)⟩

/-! ### The REST-API environment and the orchestration pipeline -/

/-- Outcome of fetching and parsing a repository file at a revision:
a 404 (`getFileContent` returns `null`), any other error including a JSON
parse failure (`getFileContent` throws), or the parsed document. -/
inductive FileFetch where
  | missing
  | failed (msg : String)
  | found (doc : List (String × JValue))

/-- The validated configuration in its ordinary well-typed shape (string
branch patterns and locale codes), as consumed by the event pipeline. -/
structure AppConfig where
  targetBranches : List String
  sourceFile : String
  sourceLocale : String
  targetLocales : List String
  outputDir : String
  projectApiKey : String
deriving DecidableEq, Repr

/-- Environment of remote-call outcomes for one pass: source-file fetches by
(path, revision); the configuration document obtained at a revision (the
composition of fetch, parse and `validateConfig`, whose internals are modelled
separately; `none` = missing or malformed); whether a commit-status call for
(sha, state) fails, and with which error; the git-object environment; the
configuration file path (`process.env.CONFIG_FILE_PATH`) and the app name
(`process.env.APP_NAME`). -/
structure ApiEnv where
  fileAt : String → String → FileFetch
  configDocAt : String → Option AppConfig
  statusErr : String → String → Option String
  git : GitEnv
  configPath : String
  appName : String

/-- `getFileContent(event, filePath, ref)` (api.js): `null` on 404, the parsed
document otherwise; other failures (including parse failures) propagate as
exceptions.  (The source trims leading/trailing slashes from `filePath`; the
environment is indexed by the path as queried.) -/
def getFileContent (env : ApiEnv) (filePath ref : String) :
    Except String (Option (List (String × JValue))) :=
  match env.fileAt filePath ref with
  | .missing => .ok none
  | .failed msg => .error msg
  | .found doc => .ok (some doc)

/-- The result object of `processPullRequest` (`SyncResult`). -/
structure SyncResult where
  success : Bool
  changesProcessed : Nat
  localesUpdated : Nat
  error : Option String := none
  message : Option String := none
deriving DecidableEq, Repr

/-- `processPullRequest(event, pullRequest, config)` (events.js): fetch the
source file at head and base (both reads are always issued — `Promise.all`;
when both reject, the head rejection is surfaced, resolving `Promise.all`'s
first-settled nondeterminism deterministically, which no claim depends on),
fail on a missing side, diff, short-circuit an empty ChangeSet, translate and
commit otherwise; every thrown error is caught and returned as a failure
result. -/
def processPullRequest (env : ApiEnv) (pullRequest : PullRequest) (config : AppConfig) :
    List Act × SyncResult :=
  let fetchActs := [Act.fetchFile config.sourceFile pullRequest.head.sha,
                    Act.fetchFile config.sourceFile pullRequest.base.sha]
  match getFileContent env config.sourceFile pullRequest.head.sha,
      getFileContent env config.sourceFile pullRequest.base.sha with
  | .error msg, _ =>
    (fetchActs, { success := false, changesProcessed := 0, localesUpdated := 0,
                  error := some msg })
  | .ok _, .error msg =>
    (fetchActs, { success := false, changesProcessed := 0, localesUpdated := 0,
                  error := some msg })
  | .ok none, .ok _ =>
    (fetchActs, { success := false, changesProcessed := 0, localesUpdated := 0,
                  error := some "No source localization file found in PR branch" })
  | .ok (some _), .ok none =>
    (fetchActs, { success := false, changesProcessed := 0, localesUpdated := 0,
                  error := some "No source localization file found in base branch" })
  | .ok (some sourceContent), .ok (some baseContent) =>
    let changes := detectStringChanges baseContent sourceContent
    if changes.added.isEmpty && changes.updated.isEmpty && changes.deleted.isEmpty then
      (fetchActs, { success := true, changesProcessed := 0, localesUpdated := 0,
                    message := some "No changes detected" })
    else
      match translateChanges changes config.projectApiKey config.targetLocales with
      | none =>
        (fetchActs ++ [Act.translateCall],
         { success := false, changesProcessed := 0, localesUpdated := 0,
           error := some "Translation API call failed" })
      | some translations =>
        let commit := commitTranslationsToPR env.git pullRequest translations
            config.outputDir changes
        if commit.2.success then
          (fetchActs ++ [Act.translateCall] ++ commit.1,
           { success := true,
             changesProcessed := changes.added.length + changes.updated.length
               + changes.deleted.length,
             localesUpdated := translations.length,
             message := some ("Successfully processed "
               ++ toString changes.added.length ++ " additions, "
               ++ toString changes.updated.length ++ " updates, and "
               ++ toString changes.deleted.length ++ " deletions") })
        else
          (fetchActs ++ [Act.translateCall] ++ commit.1,
           { success := false, changesProcessed := 0, localesUpdated := 0,
             error := commit.2.error })

/-- `setCommitStatus(event, sha, state, description, context)` (api.js): issue
the commit-status call; on failure, log and re-throw the error to the caller
(the description and context strings are passed to the API but not traced). -/
def setCommitStatus (env : ApiEnv) (sha state _description _context : String) :
    List Act × Except String Unit :=
  match env.statusErr sha state with
  | none => ([Act.statusCall sha state true], .ok ())
  | some e => ([Act.statusCall sha state false], .error e)

/-- `setErrorStatus(event, sha, error)` (events.js): best-effort `failure`
status; its own failure is caught and only logged. -/
def setErrorStatus (env : ApiEnv) (sha : String) (error : String) : List Act :=
  (setCommitStatus env sha "failure" ("Localization error: " ++ error) env.appName).1

/-- `getConfig(event, ref)` (api.js): read and validate the configuration file
at `ref`; missing file, unparseable document or any thrown error yield `null`.
The composition of fetch, parse and validation is the environment's
`configDocAt` oracle; the fetch of the configuration file is traced. -/
def getConfig (env : ApiEnv) (ref : String) : List Act × Option AppConfig :=
  ([Act.fetchFile env.configPath ref], env.configDocAt ref)

/-- `getConfigWithFallback(event)` (api.js, first revision), pull-request
case, as called from `handlePullRequestEvent`: try the pull request's head
SHA, then its base branch name, and return whatever the second attempt gave
(this revision has no default-branch step). -/
def getConfigWithFallbackV1 (env : ApiEnv) (pullRequest : PullRequest) :
    List Act × Option AppConfig :=
  let first := getConfig env pullRequest.head.sha
  match first.2 with
  | some c => (first.1, some c)
  | none =>
    let second := getConfig env pullRequest.base.ref
    (first.1 ++ second.1, second.2)

/-- `handlePullRequestEvent(event, action)` (events.js): resolve the
configuration (skip silently if absent), skip unmonitored base branches, set a
`pending` status, run `processPullRequest`, then set a `success` or `failure`
status; any exception reaches the top-level catch, which logs it and makes a
best-effort error-status attempt.  The function is total: no outcome of the
environment makes it throw. -/
def handlePullRequestEvent (env : ApiEnv) (pullRequest : PullRequest) : List Act :=
  let config? := getConfigWithFallbackV1 env pullRequest
  match config?.2 with
  | none => config?.1
  | some config =>
    if ¬ isTargetBranch pullRequest.base.ref ⟨config.targetBranches⟩ then config?.1
    else
      let pending := setCommitStatus env pullRequest.head.sha "pending"
        "Localization processing in progress..." env.appName
      match pending.2 with
      | .error e =>
        config?.1 ++ pending.1 ++ setErrorStatus env pullRequest.head.sha e
      | .ok _ =>
        let processed := processPullRequest env pullRequest config
        let final :=
          if processed.2.success then
            setCommitStatus env pullRequest.head.sha "success"
              ("Localization complete: " ++ toString processed.2.changesProcessed
                ++ " changes processed") env.appName
          else
            setCommitStatus env pullRequest.head.sha "failure"
              ("Localization failed: " ++ processed.2.error.getD "undefined") env.appName
        match final.2 with
        | .error e =>
          config?.1 ++ pending.1 ++ processed.1 ++ final.1
            ++ setErrorStatus env pullRequest.head.sha e
        | .ok _ => config?.1 ++ pending.1 ++ processed.1 ++ final.1

/-- Concrete well-typed configuration used by witnesses. -/
def appConfig0 : AppConfig :=
  ⟨["main"], "src/locales/en.json", "en", ["fr", "it"], "locales", ""⟩

/-- Concrete benign environment used by witnesses: the source file exists with
identical content at every revision, configuration resolves everywhere, all
status calls succeed. -/
def apiEnv0 : ApiEnv :=
  { fileAt := fun _ _ => .found [("a", JValue.str "1")]
    configDocAt := fun _ => some appConfig0
    statusErr := fun _ _ => none
    git := gitEnv0
    configPath := ".vocoder/config.json"
    appName := "Vocoder Localization" }

/-- Claim C4: whenever both source-file reads succeed and the computed
ChangeSet has all three maps empty, `processPullRequest` returns
`success = true` with `changesProcessed = 0` and `localesUpdated = 0`, and its
trace consists of the two file reads only — the translation step is never
invoked and no git-object call (in particular no branch write) occurs. -/
theorem processPullRequest_empty_changes (env : ApiEnv) (pr : PullRequest)
    (config : AppConfig) (headDoc baseDoc : List (String × JValue))
    (hhead : env.fileAt config.sourceFile pr.head.sha = .found headDoc)
    (hbase : env.fileAt config.sourceFile pr.base.sha = .found baseDoc)
    (hempty : (detectStringChanges baseDoc headDoc).added = []
      ∧ (detectStringChanges baseDoc headDoc).updated = []
      ∧ (detectStringChanges baseDoc headDoc).deleted = []) :
    processPullRequest env pr config
      = ([Act.fetchFile config.sourceFile pr.head.sha,
          Act.fetchFile config.sourceFile pr.base.sha],
         { success := true, changesProcessed := 0, localesUpdated := 0,
           message := some "No changes detected" }) ∧
    Act.translateCall ∉ (processPullRequest env pr config).1 ∧
    (∀ r s f, Act.updateRef r s f ∉ (processPullRequest env pr config).1) ∧
    (∀ m t p, Act.createCommit m t p ∉ (processPullRequest env pr config).1) := by
  have heq : processPullRequest env pr config
      = ([Act.fetchFile config.sourceFile pr.head.sha,
          Act.fetchFile config.sourceFile pr.base.sha],
         { success := true, changesProcessed := 0, localesUpdated := 0,
           message := some "No changes detected" }) := by
    rw [processPullRequest, getFileContent, getFileContent, hhead, hbase]
    simp [hempty.1, hempty.2.1, hempty.2.2]
  refine ⟨heq, ?_, ?_, ?_⟩
  · rw [heq]
    simp
  · intro r s f
    rw [heq]
    simp
  · intro m t p
    rw [heq]
    simp

theorem processPullRequest_empty_changes_witness :
    apiEnv0.fileAt appConfig0.sourceFile pr0.head.sha = .found [("a", JValue.str "1")] ∧
    apiEnv0.fileAt appConfig0.sourceFile pr0.base.sha = .found [("a", JValue.str "1")] ∧
    (detectStringChanges [("a", JValue.str "1")] [("a", JValue.str "1")]).added = [] ∧
    processPullRequest apiEnv0 pr0 appConfig0
      = ([Act.fetchFile appConfig0.sourceFile pr0.head.sha,
          Act.fetchFile appConfig0.sourceFile pr0.base.sha],
         { success := true, changesProcessed := 0, localesUpdated := 0,
           message := some "No changes detected" }) :=
  ⟨rfl, rfl, rfl,
    (processPullRequest_empty_changes apiEnv0 pr0 appConfig0
      [("a", JValue.str "1")] [("a", JValue.str "1")] rfl rfl ⟨rfl, rfl, rfl⟩).1⟩

/-- Every remote call made during configuration resolution is a file fetch. -/
theorem getConfigWithFallbackV1_acts (env : ApiEnv) (pr : PullRequest) :
    ∀ a ∈ (getConfigWithFallbackV1 env pr).1, ∃ p r, a = Act.fetchFile p r := by
  intro a ha
  rw [getConfigWithFallbackV1] at ha
  cases h1 : env.configDocAt pr.head.sha with
  | some c =>
    simp [getConfig, h1] at ha
    exact ⟨_, _, ha⟩
  | none =>
    simp [getConfig, h1] at ha
    rcases ha with ha | ha
    · exact ⟨_, _, ha⟩
    · exact ⟨_, _, ha⟩

/-- Every remote call made by the best-effort error status is a status call
for the `failure` state. -/
theorem setErrorStatus_acts (env : ApiEnv) (sha e : String) :
    ∀ a ∈ setErrorStatus env sha e, ∃ ok, a = Act.statusCall sha "failure" ok := by
  intro a ha
  rw [setErrorStatus, setCommitStatus] at ha
  cases h1 : env.statusErr sha "failure" with
  | none =>
    rw [h1] at ha
    exact ⟨true, List.mem_singleton.mp ha⟩
  | some msg =>
    rw [h1] at ha
    exact ⟨false, List.mem_singleton.mp ha⟩

/-- Environment in which the `pending` commit-status call fails (and nothing
else does). -/
def statusFailEnv : ApiEnv :=
  { fileAt := fun _ _ => .found [("a", JValue.str "1")]
    configDocAt := fun _ => some appConfig0
    statusErr := fun _ state => if state = "pending" then some "boom" else none
    git := gitEnv0
    configPath := ".vocoder/config.json"
    appName := "Vocoder Localization" }

/-- Claim C6 (counterexample): a failure of the commit-status API call is
escalated to the caller (`setCommitStatus` re-throws it) and aborts the
surrounding pass: with a failing `pending` call, the handler's trace shows the
configuration fetch, the failed `pending` attempt and the top-level catch's
best-effort `failure` status — but no source-file read, no translation and no
ref update — rather than continuing as if the status had been set. -/
theorem setCommitStatus_escalates_cex :
    (setCommitStatus statusFailEnv "evhead" "pending" "d" "c").2 = Except.error "boom" ∧
    handlePullRequestEvent statusFailEnv pr0
      = [Act.fetchFile ".vocoder/config.json" "evhead",
         Act.statusCall "evhead" "pending" false,
         Act.statusCall "evhead" "failure" true] ∧
    Act.fetchFile "src/locales/en.json" "evhead" ∉ handlePullRequestEvent statusFailEnv pr0 ∧
    Act.translateCall ∉ handlePullRequestEvent statusFailEnv pr0 ∧
    Act.updateRef "heads/feature" "commit1" true ∉ handlePullRequestEvent statusFailEnv pr0 := by
  refine ⟨rfl, rfl, ?_, ?_, ?_⟩
  all_goals decide

/-- Claim C6 (amended): a failure of the commit-status API call itself is
logged and re-thrown to the caller; in `handlePullRequestEvent` the top-level
catch then logs it and makes one best-effort `failure`-status attempt, whose
own failure is only logged and never re-escalated; the remaining steps of the
pass are skipped (no translation, no ref update), while the handler itself
always returns normally. -/
theorem setCommitStatus_failure_handling :
    (∀ (env : ApiEnv) (sha state desc ctx e : String), env.statusErr sha state = some e →
      setCommitStatus env sha state desc ctx = ([Act.statusCall sha state false], .error e)) ∧
    (∀ (env : ApiEnv) (pr : PullRequest) (config : AppConfig) (e : String),
      (getConfigWithFallbackV1 env pr).2 = some config →
      isTargetBranch pr.base.ref ⟨config.targetBranches⟩ = true →
      env.statusErr pr.head.sha "pending" = some e →
      handlePullRequestEvent env pr
        = (getConfigWithFallbackV1 env pr).1
            ++ [Act.statusCall pr.head.sha "pending" false]
            ++ setErrorStatus env pr.head.sha e ∧
      Act.translateCall ∉ handlePullRequestEvent env pr ∧
      (∀ r s f, Act.updateRef r s f ∉ handlePullRequestEvent env pr)) := by
  constructor
  · intro env sha state desc ctx e h
    rw [setCommitStatus, h]
  · intro env pr config e hcfg hmon hfail
    have hpend : setCommitStatus env pr.head.sha "pending"
        "Localization processing in progress..." env.appName
        = ([Act.statusCall pr.head.sha "pending" false], .error e) := by
      rw [setCommitStatus, hfail]
    have heq : handlePullRequestEvent env pr
        = (getConfigWithFallbackV1 env pr).1
            ++ [Act.statusCall pr.head.sha "pending" false]
            ++ setErrorStatus env pr.head.sha e := by
      rw [handlePullRequestEvent]
      rw [hcfg]
      simp only [hmon, hpend, not_true, if_false]
    refine ⟨heq, ?_, ?_⟩
    · rw [heq]
      intro h
      rcases List.mem_append.mp h with h | h
      · rcases List.mem_append.mp h with h | h
        · obtain ⟨p, r, habs⟩ := getConfigWithFallbackV1_acts env pr _ h
          cases habs
        · cases List.mem_singleton.mp h
      · obtain ⟨ok, habs⟩ := setErrorStatus_acts env pr.head.sha e _ h
        cases habs
    · intro r s f
      rw [heq]
      intro h
      rcases List.mem_append.mp h with h | h
      · rcases List.mem_append.mp h with h | h
        · obtain ⟨p, r', habs⟩ := getConfigWithFallbackV1_acts env pr _ h
          cases habs
        · cases List.mem_singleton.mp h
      · obtain ⟨ok, habs⟩ := setErrorStatus_acts env pr.head.sha e _ h
        cases habs

theorem setCommitStatus_failure_handling_witness :
    (getConfigWithFallbackV1 statusFailEnv pr0).2 = some appConfig0 ∧
    isTargetBranch pr0.base.ref ⟨appConfig0.targetBranches⟩ = true ∧
    statusFailEnv.statusErr pr0.head.sha "pending" = some "boom" ∧
    handlePullRequestEvent statusFailEnv pr0
      = (getConfigWithFallbackV1 statusFailEnv pr0).1
          ++ [Act.statusCall pr0.head.sha "pending" false]
          ++ setErrorStatus statusFailEnv pr0.head.sha "boom" :=
  ⟨rfl, rfl, rfl,
    ((setCommitStatus_failure_handling.2 statusFailEnv pr0 appConfig0 "boom"
      rfl rfl rfl).1)⟩

/-! ### Configuration fallback order (`getConfigWithFallback`, api.js, the
revision with the three-step pull-request fallback) -/

/-- The event fields the configuration fallback reads: the pull-request
payload if present, the branch of a push event, and the repository's default
branch. -/
structure WebhookEv where
  pullRequest : Option PullRequest
  currentBranch : Option String
  defaultBranch : String

/-- `getConfigWithFallback(event)` (api.js): for a pull-request event try the
head SHA, then the base branch name, then the default branch; for a push
event try the pushed branch, then the default branch; otherwise `null`.
Returns the ordered list of revisions attempted together with the result. -/
def getConfigWithFallback (env : ApiEnv) (event : WebhookEv) :
    List String × Option AppConfig :=
  match event.pullRequest with
  | some pr =>
    match (getConfig env pr.head.sha).2 with
    | some c => ([pr.head.sha], some c)
    | none =>
      match (getConfig env pr.base.ref).2 with
      | some c => ([pr.head.sha, pr.base.ref], some c)
      | none =>
        ([pr.head.sha, pr.base.ref, event.defaultBranch],
         (getConfig env event.defaultBranch).2)
  | none =>
    match event.currentBranch with
    | some branch =>
      match (getConfig env branch).2 with
      | some c => ([branch], some c)
      | none => ([branch, event.defaultBranch], (getConfig env event.defaultBranch).2)
    | none => ([], none)

/-- The specification's resolution scheme: attempt the given revisions in
order and return the first parseable configuration, recording every revision
attempted before success (or all of them on exhaustion). -/
def resolveConfigInOrder (env : ApiEnv) : List String → List String × Option AppConfig
  | [] => ([], none)
  | ref :: rest =>
    match (getConfig env ref).2 with
    | some c => ([ref], some c)
    | none =>
      let next := resolveConfigInOrder env rest
      (ref :: next.1, next.2)

/-- Claim C3: configuration resolution attempts revisions in exactly the fixed
order — pull-request events: head SHA, base branch name, default branch; push
events: pushed branch, default branch — returning the first attempt that
yields a parseable configuration; with neither payload nothing is attempted,
and exhaustion yields the not-found result `none` (never an error: the
function is total). -/
theorem getConfigWithFallback_order (env : ApiEnv) (event : WebhookEv) :
    (∀ pr, event.pullRequest = some pr →
      getConfigWithFallback env event
        = resolveConfigInOrder env [pr.head.sha, pr.base.ref, event.defaultBranch]) ∧
    (∀ branch, event.pullRequest = none → event.currentBranch = some branch →
      getConfigWithFallback env event
        = resolveConfigInOrder env [branch, event.defaultBranch]) ∧
    (event.pullRequest = none → event.currentBranch = none →
      getConfigWithFallback env event = ([], none)) ∧
    (∀ refs, (∀ r ∈ refs, env.configDocAt r = none) →
      (resolveConfigInOrder env refs).2 = none) := by
  refine ⟨?_, ?_, ?_, ?_⟩
  · intro pr hpr
    simp only [getConfigWithFallback, hpr, getConfig]
    cases h1 : env.configDocAt pr.head.sha with
    | some c => simp [resolveConfigInOrder, getConfig, h1]
    | none =>
      cases h2 : env.configDocAt pr.base.ref with
      | some c => simp [resolveConfigInOrder, getConfig, h1, h2]
      | none =>
        simp only [resolveConfigInOrder, getConfig, h1, h2]
        cases h3 : env.configDocAt event.defaultBranch with
        | some c => simp [h3]
        | none => simp [h3]
  · intro branch hpr hbr
    simp only [getConfigWithFallback, hpr, hbr, getConfig]
    cases h1 : env.configDocAt branch with
    | some c => simp [resolveConfigInOrder, getConfig, h1]
    | none =>
      simp only [resolveConfigInOrder, getConfig, h1]
      cases h3 : env.configDocAt event.defaultBranch with
      | some c => simp [h3]
      | none => simp [h3]
  · intro hpr hbr
    simp [getConfigWithFallback, hpr, hbr]
  · intro refs hall
    induction refs with
    | nil => rfl
    | cons ref rest ih =>
      rw [resolveConfigInOrder]
      rw [show (getConfig env ref).2 = env.configDocAt ref from rfl,
        hall ref (List.mem_cons_self _ _)]
      exact ih (fun r hr => hall r (List.mem_cons_of_mem _ hr))

theorem getConfigWithFallback_order_witness :
    (({ pullRequest := some pr0, currentBranch := none,
        defaultBranch := "main" } : WebhookEv).pullRequest = some pr0) ∧
    getConfigWithFallback apiEnv0
        { pullRequest := some pr0, currentBranch := none, defaultBranch := "main" }
      = resolveConfigInOrder apiEnv0 [pr0.head.sha, pr0.base.ref, "main"] :=
  ⟨rfl,
    (getConfigWithFallback_order apiEnv0
      { pullRequest := some pr0, currentBranch := none, defaultBranch := "main" }).1
      pr0 rfl⟩

end Vocoder
